import Mathlib

/-!
Shallow embedding of the `vert` version tracker (src/version.rs, src/package.rs)
and proofs about its version parsing, ordering, HTML scraping and upstream
dispatch logic.  Strings are modelled as `List Char`; Rust `i32` values as `Int`
with the `i32` range enforced where the source enforces it.
-/

namespace Vert

/-- Rust `char::is_ascii_digit`. -/
def isAsciiDigit (c : Char) : Bool :=
  '0' ≤ c ∧ c ≤ '9'

/-- Numeric value of a list of ASCII digit characters, most significant first
(the accumulator form used to evaluate a base-10 literal left to right). -/
def digitsVal (acc : Nat) : List Char → Nat
  | [] => acc
  | c :: t => digitsVal (acc * 10 + (c.toNat - '0'.toNat)) t

/-- Rust `i32::from_str` on a string with no sign: requires a nonempty,
all-ASCII-digit token whose value fits in `i32` (≤ 2147483647). -/
def parseDigits (t : List Char) : Option Int :=
  if t = [] then none
  else if t.all isAsciiDigit then
    let n := digitsVal 0 t
    if n ≤ 2147483647 then some (Int.ofNat n) else none
  else none

/-- Rust `i32::from_str`: optional `+`/`-` sign followed by one or more ASCII
digits, value within the `i32` range (`-2147483648 ..= 2147483647`). -/
def parseI32 (t : List Char) : Option Int :=
  match t with
  | [] => none
  | c :: ds =>
    if c = '+' then parseDigits ds
    else if c = '-' then
      match parseDigits ds with
      | some n => if n ≤ 2147483648 then some (-n) else none
      | none => none
    else parseDigits (c :: ds)

/-- Rust `str::split(&['.', '-'])`: split on either delimiter, keeping empty
tokens; always yields at least one token. -/
def splitDelim : List Char → List (List Char)
  | [] => [[]]
  | c :: t =>
    match splitDelim t with
    | [] => [[]]
    | h :: r => if c = '.' ∨ c = '-' then [] :: h :: r else (c :: h) :: r

/-- Rust `Iterator::map_while`: map elements left to right, stopping at the
first element on which the function fails. -/
def mapWhile (f : α → Option β) : List α → List β
  | [] => []
  | a :: t =>
    match f a with
    | some b => b :: mapWhile f t
    | none => []

/-- `Version::from_str` (src/version.rs lines 47-66): locate the first ASCII
digit (fail when none), split the suffix from that digit on `{'.', '-'}`,
prefix-decode the tokens as `i32`, and require more than one component.
`s.dropWhile (!isAsciiDigit ·)` is exactly the Rust slice `s[index..]` for
`index = s.find(is_ascii_digit)`. -/
def versionFromStr (s : List Char) : Option (List Int) :=
  if s.any isAsciiDigit then
    let v := mapWhile parseI32 (splitDelim (s.dropWhile (fun c => ¬ isAsciiDigit c)))
    if 1 < v.length then some v else none
  else none

/-- The comparison underlying `impl PartialOrd for Version`
(src/version.rs lines 35-45): Rust's lexicographic ordering on `Vec<i32>`. -/
def versionCmp : List Int → List Int → Ordering
  | [], [] => .eq
  | [], _ :: _ => .lt
  | _ :: _, [] => .gt
  | a :: as_, b :: bs =>
    match compare a b with
    | .eq => versionCmp as_ bs
    | o => o

/-- The strict `<` between versions used by the sink and the dispatcher. -/
def versionLt (a b : List Int) : Bool :=
  versionCmp a b = .lt

/-- `Version::new` (src/version.rs lines 16-21): stores the given component
vector with no validation. -/
def versionNew (v : List Int) : List Int := v

/-- `impl fmt::Display for Version` (src/version.rs lines 68-81): components
joined by `.`. -/
def versionToString : List Int → List Char
  | [] => []
  | [x] => (toString x).data
  | x :: y :: t => (toString x).data ++ '.' :: versionToString (y :: t)

/-- A markup token as consumed by the sink: only anchor start tags matter. -/
inductive HtmlToken where
  | startTag (name : List Char) (attrs : List (List Char × List Char))
  | other
deriving DecidableEq

/-- Lowercase an ASCII letter. -/
def asciiLower (c : Char) : Char :=
  if 'A' ≤ c ∧ c ≤ 'Z' then Char.ofNat (c.toNat + 32) else c

/-- Characters allowed in tag and attribute names. -/
def isNameChar (c : Char) : Bool :=
  c.isAlpha ∨ c.isDigit ∨ c = '-'

/-- Longest name prefix (lowercased) and the remainder. -/
def takeName : List Char → List Char × List Char
  | [] => ([], [])
  | c :: t =>
    if isNameChar c then
      let p := takeName t
      (asciiLower c :: p.1, p.2)
    else ([], c :: t)

/-- Longest prefix on which `p` is false, and the remainder. -/
def takeUntil (p : Char → Bool) : List Char → List Char × List Char
  | [] => ([], [])
  | c :: t =>
    if p c then ([], c :: t)
    else
      let q := takeUntil p t
      (c :: q.1, q.2)

/-- Drop ASCII whitespace. -/
def dropSpaces (s : List Char) : List Char :=
  s.dropWhile (fun c => c = ' ' ∨ c = '\n' ∨ c = '\t' ∨ c = '\r')

/-- Modelled from the spec: attribute scanning inside a start tag for the
external markup tokenizer (html5ever, not part of this repository).  Reads
`name`, `name=value` and `name="value"` attributes until the closing `>`. -/
def readAttrs : Nat → List Char → List (List Char × List Char) × List Char
  | 0, s => ([], s)
  | fuel + 1, s =>
    match dropSpaces s with
    | [] => ([], [])
    | '>' :: r => ([], r)
    | '/' :: t => readAttrs fuel t
    | c :: t =>
      if isNameChar c then
        let p := takeName (c :: t)
        match p.2 with
        | '=' :: '"' :: r2 =>
          let q := takeUntil (fun x => x = '"') r2
          let rest := match q.2 with
            | _ :: r3 => r3
            | [] => []
          let res := readAttrs fuel rest
          ((p.1, q.1) :: res.1, res.2)
        | '=' :: r2 =>
          let q := takeUntil (fun x => x = ' ' ∨ x = '>') r2
          let res := readAttrs fuel q.2
          ((p.1, q.1) :: res.1, res.2)
        | r2 =>
          let res := readAttrs fuel r2
          ((p.1, []) :: res.1, res.2)
      else readAttrs fuel t

/-- Modelled from the spec: the external streaming markup tokenizer
(html5ever, not part of this repository) as a single left-to-right pass
producing start-tag tokens; end tags, comments, doctypes and text are
"other" events and ignored. -/
def tokenizeAux : Nat → List Char → List HtmlToken
  | 0, _ => []
  | _, [] => []
  | fuel + 1, '<' :: t =>
    match t with
    | [] => []
    | '/' :: r =>
      let q := takeUntil (fun c => c = '>') r
      match q.2 with
      | _ :: r3 => tokenizeAux fuel r3
      | [] => []
    | '!' :: r =>
      let q := takeUntil (fun c => c = '>') r
      match q.2 with
      | _ :: r3 => tokenizeAux fuel r3
      | [] => []
    | c :: r =>
      if c.isAlpha then
        let p := takeName (c :: r)
        let res := readAttrs fuel p.2
        .startTag p.1 res.1 :: tokenizeAux fuel res.2
      else tokenizeAux fuel (c :: r)
  | fuel + 1, _ :: t => tokenizeAux fuel t

/-- Modelled from the spec: tokenize a whole document body. -/
def tokenize (s : List Char) : List HtmlToken :=
  tokenizeAux (s.length + 1) s

/-- The best-so-far update of `VersionSink::process_token`
(src/version.rs lines 115-123). -/
def sinkStep (best : Option (List Int)) (v : List Int) : Option (List Int) :=
  match best with
  | none => some v
  | some b => if versionLt b v then some v else some b

/-- `VersionSink::process_token` (src/version.rs lines 97-129): on an `<a>`
start tag, try each `href` attribute value as a Version and retain the
greater of it and the best seen so far. -/
def processToken (best : Option (List Int)) (tok : HtmlToken) : Option (List Int) :=
  match tok with
  | .startTag name attrs =>
    if name = "a".data then
      attrs.foldl (fun b attr =>
        if attr.1 = "href".data then
          match versionFromStr attr.2 with
          | some ver => sinkStep b ver
          | none => b
        else b) best
    else best
  | .other => best

/-- `parse_html` (src/version.rs lines 132-144): feed the tokens of the body
to the sink and return its retained version. -/
def parseHtml (s : List Char) : Option (List Int) :=
  (tokenize s).foldl processToken none

/-- The Versions successfully parsed from `href` attributes of one token. -/
def anchorHrefVersions (tok : HtmlToken) : List (List Int) :=
  match tok with
  | .startTag name attrs =>
    if name = "a".data then
      attrs.filterMap (fun attr =>
        if attr.1 = "href".data then versionFromStr attr.2 else none)
    else []
  | .other => []

/-- All candidate Versions of a token stream, in document order. -/
def candidates (toks : List HtmlToken) : List (List Int) :=
  (toks.map anchorHrefVersions).flatten

/-- The directory-listing body named by the scraper property: a `sudo`
distribution index whose anchors carry the hrefs listed in the claim. -/
def sudoListing : List Char :=
  ("<html>\n<head><title>Index of /dist/</title></head>\n<body>\n" ++
   "<h1>Index of /dist/</h1><hr><pre><a href=\"../\">../</a>\n" ++
   "<a href=\"README\">README</a>\n" ++
   "<a href=\"SHA256\">SHA256</a>\n" ++
   "<a href=\"sudo-1.8.0.tar.gz\">sudo-1.8.0.tar.gz</a>\n" ++
   "<a href=\"sudo-1.8.10.tar.gz\">sudo-1.8.10.tar.gz</a>\n" ++
   "<a href=\"sudo-1.8.10p1.tar.gz\">sudo-1.8.10p1.tar.gz</a>\n" ++
   "</body></html>\n").data


/-- The fields of `Package` (src/package.rs lines 25-33) that the discovery
core reads or writes; database id and timestamp are owned by the storage
layer and omitted. -/
structure Package where
  distname : List Char
  master_site : List Char
  version : List Char
  local_version : Option (List Char)
deriving DecidableEq

/-- `PypiProjectInfo` (src/package.rs lines 15-18). -/
structure PypiProjectInfo where
  version : List Char
deriving DecidableEq

/-- `PypiProject` (src/package.rs lines 10-13). -/
structure PypiProject where
  info : PypiProjectInfo
deriving DecidableEq

/-- `GitHubReleaseInfo` (src/package.rs lines 20-23). -/
structure GitHubReleaseInfo where
  tag_name : List Char
deriving DecidableEq

/-- `Package::parse_pypi` (src/package.rs lines 317-330): adopt the JSON
`version` field verbatim when it differs from the current version string. -/
def parsePypi (pkg : Package) (proj : PypiProject) : Bool × Package :=
  if pkg.version = proj.info.version then (false, pkg)
  else (true, { pkg with version := proj.info.version })

/-- Rust `str::trim_start_matches(|c| !char::is_ascii_digit(&c))`: remove the
longest prefix of non-ASCII-digit characters. -/
def stripTag (t : List Char) : List Char :=
  t.dropWhile (fun c => ¬ isAsciiDigit c)

/-- `Package::parse_github` (src/package.rs lines 332-348): strip the longest
prefix of non-ASCII-digit characters from `tag_name`, then adopt the stripped
string when it differs from the current version string. -/
def parseGithub (pkg : Package) (info : GitHubReleaseInfo) : Bool × Package :=
  let version := stripTag info.tag_name
  if pkg.version ≠ version then (true, { pkg with version := version })
  else (false, pkg)

/-- Modelled from the spec: the parsed URL view offered by the external URL
library (`reqwest::Url`, not part of this repository): a domain, the path
(with its leading `/`), and the path split into segments. -/
structure Url where
  domain : Option (List Char)
  path : List Char
  pathSegments : Option (List (List Char))
deriving DecidableEq

/-- Split on a single delimiter character, keeping empty tokens. -/
def splitOnChar (d : Char) : List Char → List (List Char)
  | [] => [[]]
  | c :: t =>
    match splitOnChar d t with
    | [] => [[]]
    | h :: r => if c = d then [] :: h :: r else (c :: h) :: r

/-- First occurrence split: `breakOnSub pat s = some (before, after)` with
`s = before ++ pat ++ after` at the leftmost occurrence of `pat`. -/
def breakOnSub (pat : List Char) : List Char → Option (List Char × List Char)
  | [] => if pat = [] then some ([], []) else none
  | c :: t =>
    if pat.isPrefixOf (c :: t) then some ([], (c :: t).drop pat.length)
    else
      match breakOnSub pat t with
      | some p => some (c :: p.1, p.2)
      | none => none

/-- Modelled from the spec: the external URL parser (`reqwest::Url::parse`,
not part of this repository), restricted to `scheme://host/path` forms; it
fails on strings without a scheme separator or with an empty scheme or
host. -/
def urlParse (s : List Char) : Option Url :=
  match breakOnSub "://".data s with
  | none => none
  | some (scheme, rest) =>
    if scheme = [] then none
    else
      let host := rest.takeWhile (fun c => ¬ (c = '/'))
      let pathRest := rest.dropWhile (fun c => ¬ (c = '/'))
      let path := if pathRest = [] then "/".data else pathRest
      if host = [] then none
      else some { domain := some host, path := path,
                  pathSegments := some (splitOnChar '/' (path.drop 1)) }

/-- What a decoded HTTP response can offer the dispatcher (spec §6): the raw
text body and the two structured decodes, each of which may fail. -/
structure RespBody where
  textResult : Option (List Char)
  pypiJson : Option PypiProject
  githubJson : Option GitHubReleaseInfo

/-- Outcome of one network send: a transport-level failure or a status plus
body (spec §6 `GET(url, headers) -> (status, body-bytes)`). -/
inductive FetchOutcome where
  | transportErr
  | resp (status : Nat) (body : RespBody)

/-- A request issued by the dispatcher: target URL and optional basic-auth
credentials. -/
structure Request where
  url : List Char
  auth : Option (List Char × Option (List Char))

/-- `Package::auto_check` (src/package.rs lines 350-447) with the network as
an explicit oracle.  `Except.error` marks the `unwrap()` panics of the
source: URL parse failure, a failed `send()` in the package-index and
release-hosting branches, a failed `text()` decode in the generic branch,
and an unparseable current version when the scraper found a version. -/
def autoCheck (net : Request → FetchOutcome) (githubAccount : Option (List Char))
    (githubToken : Option (List Char)) (pkg : Package) :
    Except (List Char) (Bool × Package) :=
  match urlParse pkg.master_site with
  | none => .error "Url::parse unwrap".data
  | some url =>
    match url.domain with
    | none => .ok (false, pkg)
    | some hostname =>
      if hostname = "pypi.org".data then
        match url.pathSegments.bind List.getLast? with
        | none => .ok (false, pkg)
        | some project =>
          match net ⟨"https://pypi.org/pypi/".data ++ project ++ "/json".data, none⟩ with
          | .transportErr => .error "send unwrap".data
          | .resp status body =>
            if status ≠ 200 then .ok (false, pkg)
            else
              match body.pypiJson with
              | some proj => .ok (parsePypi pkg proj)
              | none => .ok (false, pkg)
      else if hostname = "github.com".data then
        let req : Request :=
          ⟨"https://api.github.com/repos".data ++ url.path ++ "/releases/latest".data,
           match githubAccount with
           | some account => some (account, githubToken)
           | none => none⟩
        match net req with
        | .transportErr => .error "send unwrap".data
        | .resp status body =>
          if status ≠ 200 then .ok (false, pkg)
          else
            match body.githubJson with
            | some info => .ok (parseGithub pkg info)
            | none => .ok (false, pkg)
      else
        match net ⟨pkg.master_site, none⟩ with
        | .transportErr => .ok (false, pkg)
        | .resp status body =>
          if status ≠ 200 then .ok (false, pkg)
          else
            match body.textResult with
            | none => .error "text unwrap".data
            | some bodyText =>
              match parseHtml bodyText with
              | none => .ok (false, pkg)
              | some version =>
                match versionFromStr pkg.version with
                | none => .error "Version::from_str unwrap".data
                | some myVersion =>
                  if versionLt myVersion version then
                    .ok (false, { pkg with version := versionToString version })
                  else .ok (false, pkg)

/-- Rust `str::contains` with a literal pattern. -/
def containsSub (pat : List Char) : List Char → Bool
  | [] => pat.isPrefixOf []
  | c :: t => pat.isPrefixOf (c :: t) || containsSub pat t

/-- Fuelled scanner behind `replaceAll`; the fuel only bounds the recursion
and is irrelevant whenever it is at least the length of the input. -/
def replaceAllAux (pat rep : List Char) : Nat → List Char → List Char
  | _, [] => []
  | 0, s => s
  | fuel + 1, c :: t =>
    if 0 < pat.length ∧ pat.isPrefixOf (c :: t) then
      rep ++ replaceAllAux pat rep fuel ((c :: t).drop pat.length)
    else
      c :: replaceAllAux pat rep fuel t

/-- Rust `str::replace`: replace every leftmost non-overlapping occurrence of
`pat` by `rep`.  (The `0 < pat.length` guard only rules out the empty
pattern, which this program never uses.) -/
def replaceAll (pat rep s : List Char) : List Char :=
  replaceAllAux pat rep s.length s

/-- `pat` occurs as a contiguous substring of `s`. -/
def occursIn (pat s : List Char) : Prop :=
  ∃ i, pat <+: s.drop i

/-- The legacy package-index URL fragment rewritten by `fix_pypi`. -/
def patPypi : List Char := "pypi.python.org/pypi/".data

/-- Its modern replacement. -/
def repPypi : List Char := "pypi.org/project/".data

/-- `Package::fix_pypi`, string part (src/package.rs lines 151-177): drop one
trailing `/`, then rewrite `pypi.python.org/pypi/` to `pypi.org/project/`
(the database write is the storage layer's and omitted). -/
def fixPypiSite (s : List Char) : List Char :=
  let s1 := if s.getLast? = some '/' then s.dropLast else s
  if containsSub patPypi s1 then replaceAll patPypi repPypi s1 else s1

/-- A directory-listing body whose greatest anchor version is `1.1`. -/
def genericBody : List Char :=
  "<html><a href=\"pkg-1.1.tar.gz\">pkg-1.1.tar.gz</a></html>".data

/-- A network that answers every request with status 200 and `genericBody`. -/
def genericNet : Request → FetchOutcome :=
  fun _ => .resp 200 ⟨some genericBody, none, none⟩

/-- A package served by a generic (non-index, non-release) host. -/
def genericPkg : Package :=
  ⟨"pkg".data, "https://example.com/dist".data, "1.0".data, none⟩

/-- A network on which every send fails at the transport level. -/
def transportFailNet : Request → FetchOutcome :=
  fun _ => .transportErr

/-- A package served by the package-index host. -/
def pypiPkg : Package :=
  ⟨"foo".data, "https://pypi.org/project/foo".data, "1.0".data, none⟩

/-- A package served by the release-hosting host. -/
def githubPkg : Package :=
  ⟨"bar".data, "https://github.com/owner/bar".data, "1.0".data, none⟩

/-- A network that answers every request with a 503 status. -/
def status503Net : Request → FetchOutcome :=
  fun _ => .resp 503 ⟨none, none, none⟩

/-- A network that answers 200 with a body that fails every structured
decode. -/
def decodeFailNet : Request → FetchOutcome :=
  fun _ => .resp 200 ⟨some [], none, none⟩

theorem isPrefixOf_eq (l₁ l₂ : List Char) : l₁.isPrefixOf l₂ = true ↔ l₁ <+: l₂ :=
  List.isPrefixOf_iff_prefix

theorem versionCmp_eq_iff : ∀ a b : List Int, versionCmp a b = .eq ↔ a = b := by
  intro a
  induction a with
  | nil => intro b; cases b <;> simp [versionCmp]
  | cons x t ih =>
    intro b
    cases b with
    | nil => simp [versionCmp]
    | cons y u =>
      simp only [versionCmp]
      rcases lt_trichotomy x y with h | h | h
      · rw [compare_lt_iff_lt.2 h]
        simp
        rintro rfl
        exact absurd h (lt_irrefl x)
      · subst h
        rw [compare_eq_iff_eq.2 rfl]
        simp [ih]
      · rw [compare_gt_iff_gt.2 h]
        simp
        rintro rfl
        exact absurd h (lt_irrefl x)

theorem versionCmp_swap : ∀ a b : List Int, (versionCmp a b).swap = versionCmp b a := by
  intro a
  induction a with
  | nil => intro b; cases b <;> rfl
  | cons x t ih =>
    intro b
    cases b with
    | nil => rfl
    | cons y u =>
      simp only [versionCmp]
      rcases lt_trichotomy x y with h | h | h
      · rw [compare_lt_iff_lt.2 h, compare_gt_iff_gt.2 h]; rfl
      · subst h; rw [compare_eq_iff_eq.2 rfl]; exact ih u
      · rw [compare_gt_iff_gt.2 h, compare_lt_iff_lt.2 h]; rfl

theorem versionCmp_trans :
    ∀ a b c : List Int, versionCmp a b = .lt → versionCmp b c = .lt →
      versionCmp a c = .lt := by
  intro a
  induction a with
  | nil =>
    intro b c hab hbc
    cases b with
    | nil => exact hbc
    | cons y u =>
      cases c with
      | nil => simp [versionCmp] at hbc
      | cons z w => rfl
  | cons x t ih =>
    intro b c hab hbc
    cases b with
    | nil => simp [versionCmp] at hab
    | cons y u =>
      cases c with
      | nil => simp [versionCmp] at hbc
      | cons z w =>
        simp only [versionCmp] at hab hbc ⊢
        rcases lt_trichotomy x y with hxy | hxy | hxy
        · rcases lt_trichotomy y z with hyz | hyz | hyz
          · rw [compare_lt_iff_lt.2 (hxy.trans hyz)]
          · subst hyz; rw [compare_lt_iff_lt.2 hxy]
          · rw [compare_gt_iff_gt.2 hyz] at hbc; exact absurd hbc (by simp)
        · subst hxy
          rcases lt_trichotomy x z with hyz | hyz | hyz
          · rw [compare_lt_iff_lt.2 hyz]
          · subst hyz
            rw [compare_eq_iff_eq.2 rfl] at hab hbc ⊢
            exact ih u w hab hbc
          · rw [compare_gt_iff_gt.2 hyz] at hbc; exact absurd hbc (by simp)
        · rw [compare_gt_iff_gt.2 hxy] at hab; exact absurd hab (by simp)

/-- Comparison ignores a common prefix. -/
theorem versionCmp_append_left :
    ∀ (p a b : List Int), versionCmp (p ++ a) (p ++ b) = versionCmp a b := by
  intro p
  induction p with
  | nil => intro a b; rfl
  | cons x t ih =>
    intro a b
    simp only [List.cons_append, versionCmp, compare_eq_iff_eq.2 (rfl : x = x)]
    exact ih a b

/-- A strict prefix is ordered before the longer sequence. -/
theorem versionCmp_prefix_lt (a : List Int) (c : Int) (cs : List Int) :
    versionCmp a (a ++ c :: cs) = .lt := by
  have := versionCmp_append_left a [] (c :: cs)
  simpa [versionCmp] using this

theorem versionLt_irrefl (v : List Int) : versionLt v v = false := by
  simp [versionLt, (versionCmp_eq_iff v v).2 rfl]

theorem versionLt_trans {a b c : List Int} (h1 : versionLt a b = true)
    (h2 : versionLt b c = true) : versionLt a c = true := by
  simp only [versionLt, decide_eq_true_eq] at h1 h2 ⊢
  exact versionCmp_trans a b c h1 h2

theorem versionLt_false_cases {a b : List Int} (h : versionLt a b = false) :
    a = b ∨ versionLt b a = true := by
  simp only [versionLt, decide_eq_true_eq, decide_eq_false_iff_not] at h ⊢
  match e : versionCmp a b with
  | .lt => exact absurd e h
  | .eq => exact Or.inl ((versionCmp_eq_iff a b).1 e)
  | .gt =>
    refine Or.inr ?_
    have := versionCmp_swap a b
    rw [e] at this
    simpa [Ordering.swap] using this.symm

theorem sinkStep_isSome (b : Option (List Int)) (v : List Int) :
    ∃ w, sinkStep b v = some w := by
  cases b with
  | none => exact ⟨v, rfl⟩
  | some x =>
    simp only [sinkStep]
    by_cases h : versionLt x v = true
    · exact ⟨v, by simp [h]⟩
    · exact ⟨x, by simp [h]⟩

theorem foldl_sinkStep_none :
    ∀ (l : List (List Int)) (best : Option (List Int)),
      l.foldl sinkStep best = none ↔ best = none ∧ l = [] := by
  intro l
  induction l with
  | nil => intro best; simp
  | cons v t ih =>
    intro best
    simp only [List.foldl_cons]
    constructor
    · intro h
      obtain ⟨w, hw⟩ := sinkStep_isSome best v
      rw [hw] at h
      rcases (ih (some w)).1 h with ⟨h1, _⟩
      exact absurd h1 (by simp)
    · rintro ⟨-, h⟩
      exact absurd h (by simp)

theorem foldl_sinkStep_mem :
    ∀ (l : List (List Int)) (best : Option (List Int)) (v : List Int),
      l.foldl sinkStep best = some v → best = some v ∨ v ∈ l := by
  intro l
  induction l with
  | nil => intro best v h; exact Or.inl h
  | cons w t ih =>
    intro best v h
    simp only [List.foldl_cons] at h
    rcases ih (sinkStep best w) v h with h1 | h1
    · cases best with
      | none =>
        simp only [sinkStep] at h1
        exact Or.inr (by simp [(Option.some_inj.1 h1).symm])
      | some b =>
        simp only [sinkStep] at h1
        by_cases hb : versionLt b w = true
        · rw [if_pos hb] at h1
          exact Or.inr (by simp [(Option.some_inj.1 h1).symm])
        · rw [if_neg hb] at h1
          exact Or.inl h1
    · exact Or.inr (List.mem_cons_of_mem w h1)

theorem foldl_sinkStep_notLt :
    ∀ (l : List (List Int)) (best : Option (List Int)) (v : List Int),
      l.foldl sinkStep best = some v →
      (∀ w ∈ l, versionLt v w = false) ∧
      (∀ b, best = some b → versionLt v b = false) := by
  intro l
  induction l with
  | nil =>
    intro best v h
    refine ⟨by simp, ?_⟩
    intro b hb
    simp only [List.foldl_nil] at h
    rw [hb] at h
    have hbv : b = v := Option.some_inj.1 h
    subst hbv
    exact versionLt_irrefl b
  | cons w t ih =>
    intro best v h
    simp only [List.foldl_cons] at h
    obtain ⟨iht, ihb⟩ := ih (sinkStep best w) v h
    cases best with
    | none =>
      have hw : versionLt v w = false := ihb w (by simp [sinkStep])
      refine ⟨?_, by simp⟩
      intro u hu
      rcases List.mem_cons.1 hu with rfl | hu
      · exact hw
      · exact iht u hu
    | some b =>
      by_cases hb : versionLt b w = true
      · have hstep : sinkStep (some b) w = some w := by simp [sinkStep, hb]
        rw [hstep] at ihb
        have hw : versionLt v w = false := ihb w rfl
        have hvb : versionLt v b = false := by
          by_contra hc
          have hvb' : versionLt v b = true := by
            cases e : versionLt v b
            · exact absurd e hc
            · rfl
          have := versionLt_trans hvb' hb
          rw [this] at hw
          exact absurd hw (by simp)
        refine ⟨?_, ?_⟩
        · intro u hu
          rcases List.mem_cons.1 hu with rfl | hu
          · exact hw
          · exact iht u hu
        · intro b0 hb0
          rw [Option.some_inj.1 hb0.symm]
          exact hvb
      · have hb' : versionLt b w = false := by
          cases e : versionLt b w
          · rfl
          · exact absurd e hb
        have hstep : sinkStep (some b) w = some b := by simp [sinkStep, hb']
        rw [hstep] at ihb
        have hvb : versionLt v b = false := ihb b rfl
        have hw : versionLt v w = false := by
          by_contra hc
          have hvw : versionLt v w = true := by
            cases e : versionLt v w
            · exact absurd e hc
            · rfl
          rcases versionLt_false_cases hb' with rfl | hwb
          · rw [hvw] at hvb; exact absurd hvb (by simp)
          · have := versionLt_trans hvw hwb
            rw [this] at hvb
            exact absurd hvb (by simp)
        refine ⟨?_, ?_⟩
        · intro u hu
          rcases List.mem_cons.1 hu with rfl | hu
          · exact hw
          · exact iht u hu
        · intro b0 hb0
          rw [Option.some_inj.1 hb0.symm]
          exact hvb

theorem processToken_eq_fold (tok : HtmlToken) (best : Option (List Int)) :
    processToken best tok = (anchorHrefVersions tok).foldl sinkStep best := by
  cases tok with
  | other => rfl
  | startTag name attrs =>
    simp only [processToken, anchorHrefVersions]
    by_cases hname : name = "a".data
    · rw [if_pos hname, if_pos hname]
      induction attrs generalizing best with
      | nil => rfl
      | cons attr t ih =>
        simp only [List.foldl_cons, List.filterMap_cons]
        by_cases hhref : attr.1 = "href".data
        · rw [if_pos hhref, if_pos hhref]
          cases hv : versionFromStr attr.2 with
          | none => simpa using ih best
          | some ver => simpa using ih (sinkStep best ver)
        · rw [if_neg hhref, if_neg hhref]
          exact ih best
    · rw [if_neg hname, if_neg hname]
      simp

theorem parseHtml_eq_fold (s : List Char) :
    parseHtml s = (candidates (tokenize s)).foldl sinkStep none := by
  unfold parseHtml
  generalize tokenize s = toks
  rw [show (none : Option (List Int)) = List.foldl sinkStep none [] from rfl]
  generalize (List.foldl sinkStep none [] : Option (List Int)) = best
  induction toks generalizing best with
  | nil => rfl
  | cons tok t ih =>
    simp only [List.foldl_cons, candidates, List.map_cons, List.flatten_cons,
      List.foldl_append]
    rw [processToken_eq_fold]
    exact ih (List.foldl sinkStep best (anchorHrefVersions tok))

set_option maxRecDepth 100000 in
example : parseHtml sudoListing = some [1, 8, 10] := by decide

theorem splitDelim_ne_nil (s : List Char) : splitDelim s ≠ [] := by
  cases s with
  | nil => simp [splitDelim]
  | cons c t =>
    simp only [splitDelim]
    cases splitDelim t with
    | nil => simp
    | cons h r => by_cases hc : c = '.' ∨ c = '-' <;> simp [hc]

theorem splitDelim_no_dash : ∀ (s : List Char), ∀ t ∈ splitDelim s, '-' ∉ t := by
  intro s
  induction s with
  | nil =>
    intro t ht
    simp only [splitDelim, List.mem_singleton] at ht
    simp [ht]
  | cons c u ih =>
    intro t ht
    rcases e : splitDelim u with - | ⟨h, r⟩
    · exact absurd e (splitDelim_ne_nil u)
    · simp only [splitDelim, e] at ht
      by_cases hc : c = '.' ∨ c = '-'
      · rw [if_pos hc] at ht
        rcases List.mem_cons.1 ht with rfl | ht2
        · simp
        · exact ih t (e ▸ ht2)
      · rw [if_neg hc] at ht
        rcases List.mem_cons.1 ht with rfl | ht2
        · intro hmem
          rcases List.mem_cons.1 hmem with rfl | hmem2
          · exact hc (Or.inr rfl)
          · exact ih h (e ▸ List.mem_cons_self h r) hmem2
        · exact ih t (e ▸ List.mem_cons_of_mem h ht2)

theorem mem_mapWhile {f : α → Option β} :
    ∀ (l : List α) (b : β), b ∈ mapWhile f l → ∃ a ∈ l, f a = some b := by
  intro l
  induction l with
  | nil => intro b hb; simp [mapWhile] at hb
  | cons a t ih =>
    intro b hb
    simp only [mapWhile] at hb
    cases e : f a with
    | none => rw [e] at hb; simp at hb
    | some x =>
      rw [e] at hb
      rcases List.mem_cons.1 hb with rfl | hb2
      · exact ⟨a, List.mem_cons_self a t, e⟩
      · obtain ⟨a2, ha2, hf⟩ := ih b hb2
        exact ⟨a2, List.mem_cons_of_mem a ha2, hf⟩

theorem parseDigits_nonneg {t : List Char} {n : Int} (h : parseDigits t = some n) :
    0 ≤ n := by
  simp only [parseDigits] at h
  split_ifs at h
  all_goals simp at h
  omega

theorem parseI32_nonneg : ∀ {t : List Char} {n : Int},
    '-' ∉ t → parseI32 t = some n → 0 ≤ n := by
  intro t n hd h
  cases t with
  | nil => simp [parseI32] at h
  | cons c ds =>
    simp only [parseI32] at h
    by_cases hp : c = '+'
    · rw [if_pos hp] at h
      exact parseDigits_nonneg h
    · rw [if_neg hp] at h
      by_cases hm : c = '-'
      · subst hm
        simp at hd
      · rw [if_neg hm] at h
        exact parseDigits_nonneg h

theorem parseI32_overflow_none {t : List Char} (hall : t.all isAsciiDigit = true)
    (hbig : 2147483647 < digitsVal 0 t) : parseI32 t = none := by
  cases t with
  | nil =>
    rw [show digitsVal 0 ([] : List Char) = 0 from rfl] at hbig
    omega
  | cons c ds =>
    have hc : isAsciiDigit c = true :=
      List.all_eq_true.1 hall c (List.mem_cons_self c ds)
    have hplus : c ≠ '+' := by
      intro e
      rw [e] at hc
      exact absurd hc (by decide)
    have hminus : c ≠ '-' := by
      intro e
      rw [e] at hc
      exact absurd hc (by decide)
    have hn : ¬ (digitsVal 0 (c :: ds) ≤ 2147483647) := by omega
    simp only [parseI32, if_neg hplus, if_neg hminus, parseDigits]
    rw [if_neg (show ¬ (c :: ds = []) by simp), if_pos hall]
    simp [hn]
/-- C3: `Version::from_str` locates the first ASCII digit (failing when none
exists), splits the suffix from that digit on `.` and `-`, prefix-decodes the
tokens as base-10 integers stopping at the first failure, and fails when fewer
than two components result; the four claimed examples all parse to
`[1, 2, 3]`. -/
theorem versionFromStr_parsing_contract :
    (∀ s : List Char, (∀ c ∈ s, isAsciiDigit c = false) → versionFromStr s = none) ∧
    (∀ s : List Char, s.any isAsciiDigit = true →
      versionFromStr s =
        (if 1 < (mapWhile parseI32
              (splitDelim (s.dropWhile (fun c => ¬ isAsciiDigit c)))).length
         then some (mapWhile parseI32
              (splitDelim (s.dropWhile (fun c => ¬ isAsciiDigit c))))
         else none)) ∧
    (∀ (s : List Char) (v : List Int), versionFromStr s = some v → 2 ≤ v.length) ∧
    versionFromStr "package-1.2.3.tar.gz".data = some [1, 2, 3] ∧
    versionFromStr "package-1.2-3".data = some [1, 2, 3] ∧
    versionFromStr "01.02.03".data = some [1, 2, 3] ∧
    versionFromStr "1.2.3".data = some [1, 2, 3] := by
  refine ⟨?_, ?_, ?_, by decide, by decide, by decide, by decide⟩
  · intro s h
    have hany : s.any isAsciiDigit = false := by
      rw [List.any_eq_false]
      intro c hc
      simp [h c hc]
    simp [versionFromStr, hany]
  · intro s h1
    simp [versionFromStr, h1]
  · intro s v h
    simp only [versionFromStr] at h
    split_ifs at h with h1 h2
    rw [Option.some_inj] at h
    rw [← h]
    omega

/-- C4: the Version comparison is lexicographic on component sequences — it
ignores a common prefix, decides numerically at the first differing index,
and orders a strict prefix first — and it is a strict total order: equality
of comparisons is equality of sequences, `gt` is the mirror of `lt`, and
`lt` is transitive; `[1,2] < [1,2,0] < [1,2,1]`. -/
theorem versionCmp_total_order :
    (∀ a b : List Int, versionCmp a b = .eq ↔ a = b) ∧
    (∀ p a b : List Int, versionCmp (p ++ a) (p ++ b) = versionCmp a b) ∧
    (∀ (p : List Int) (x y : Int) (xs ys : List Int), x ≠ y →
      versionCmp (p ++ x :: xs) (p ++ y :: ys) = compare x y) ∧
    (∀ (a : List Int) (c : Int) (cs : List Int), versionCmp a (a ++ c :: cs) = .lt) ∧
    (∀ a b : List Int, versionCmp a b = .gt ↔ versionCmp b a = .lt) ∧
    (∀ a b c : List Int, versionCmp a b = .lt → versionCmp b c = .lt →
      versionCmp a c = .lt) ∧
    versionCmp [1, 2] [1, 2, 0] = .lt ∧ versionCmp [1, 2, 0] [1, 2, 1] = .lt := by
  refine ⟨versionCmp_eq_iff, versionCmp_append_left, ?_, versionCmp_prefix_lt,
    ?_, versionCmp_trans, by decide, by decide⟩
  · intro p x y xs ys hxy
    rw [versionCmp_append_left]
    simp only [versionCmp]
    rcases lt_trichotomy x y with h | h | h
    · rw [compare_lt_iff_lt.2 h]
    · exact absurd h hxy
    · rw [compare_gt_iff_gt.2 h]
  · intro a b
    constructor
    · intro h
      have hs := versionCmp_swap a b
      rw [h] at hs
      exact hs.symm
    · intro h
      have hs := versionCmp_swap b a
      rw [h] at hs
      exact hs.symm

/-- Witness for C4 at concrete inputs: the first differing index decides, and
transitivity chains two concrete strict comparisons. -/
theorem versionCmp_total_order_witness :
    versionCmp ([5] ++ 1 :: []) ([5] ++ 2 :: [0]) = compare (1 : Int) 2 ∧
    versionCmp [1, 0] [1, 2] = .lt :=
  ⟨versionCmp_total_order.2.2.1 [5] 1 2 [] [0] (by decide),
   versionCmp_total_order.2.2.2.2.2.1 [1, 0] [1, 1] [1, 2] (by decide) (by decide)⟩

/-- Witness for C3 at concrete inputs: a digit-free string fails to parse, and
every parsed result has at least two components. -/
theorem versionFromStr_parsing_contract_witness :
    versionFromStr "no digits here".data = none ∧ 2 ≤ ([1, 2, 3] : List Int).length :=
  ⟨versionFromStr_parsing_contract.1 "no digits here".data (by decide),
   versionFromStr_parsing_contract.2.2.1 "1.2.3".data [1, 2, 3] (by decide)⟩

set_option maxRecDepth 400000 in
/-- C5: the scraper returns "none found" exactly when no anchor `href` parses
as a Version, otherwise it returns a candidate that no other candidate
strictly exceeds (the maximum under the Version ordering); on the sudo
directory listing it returns exactly `[1, 8, 10]`. -/
theorem parseHtml_max_contract :
    (∀ html : List Char,
      (parseHtml html = none ↔ candidates (tokenize html) = [])) ∧
    (∀ (html : List Char) (v : List Int), parseHtml html = some v →
      v ∈ candidates (tokenize html) ∧
      ∀ w ∈ candidates (tokenize html), versionLt v w = false) ∧
    parseHtml sudoListing = some [1, 8, 10] := by
  refine ⟨?_, ?_, by decide⟩
  · intro html
    rw [parseHtml_eq_fold]
    rw [foldl_sinkStep_none]
    simp
  · intro html v h
    rw [parseHtml_eq_fold] at h
    have hmem := foldl_sinkStep_mem (candidates (tokenize html)) none v h
    have hmax := foldl_sinkStep_notLt (candidates (tokenize html)) none v h
    refine ⟨?_, hmax.1⟩
    rcases hmem with h1 | h1
    · exact absurd h1 (by simp)
    · exact h1

set_option maxRecDepth 400000 in
/-- Witness for C5 at the sudo listing: `[1, 8, 10]` is among the candidates
and no candidate strictly exceeds it. -/
theorem parseHtml_max_contract_witness :
    [1, 8, 10] ∈ candidates (tokenize sudoListing) ∧
    ∀ w ∈ candidates (tokenize sudoListing), versionLt [1, 8, 10] w = false :=
  parseHtml_max_contract.2.1 sudoListing [1, 8, 10] (by decide)

/-- C6: the package-index strategy adopts the JSON `version` field verbatim
and the release-hosting strategy adopts `tag_name` with its non-digit prefix
stripped (`"v3.1.0"` becomes `"3.1.0"`); both report changed exactly on
string inequality with the current version, updating the version in that
case and leaving the package untouched otherwise. -/
theorem structured_strategies_string_inequality :
    (∀ (pkg : Package) (proj : PypiProject),
      ((parsePypi pkg proj).1 = true ↔ proj.info.version ≠ pkg.version)) ∧
    (∀ (pkg : Package) (proj : PypiProject),
      (parsePypi pkg proj).2 =
        (if proj.info.version = pkg.version then pkg
         else { pkg with version := proj.info.version })) ∧
    (∀ (pkg : Package) (info : GitHubReleaseInfo),
      ((parseGithub pkg info).1 = true ↔ stripTag info.tag_name ≠ pkg.version)) ∧
    (∀ (pkg : Package) (info : GitHubReleaseInfo),
      (parseGithub pkg info).2 =
        (if stripTag info.tag_name = pkg.version then pkg
         else { pkg with version := stripTag info.tag_name })) ∧
    stripTag "v3.1.0".data = "3.1.0".data := by
  refine ⟨?_, ?_, ?_, ?_, by decide⟩
  · intro pkg proj
    rcases eq_or_ne pkg.version proj.info.version with h | h
    · simp [parsePypi, h]
    · simp [parsePypi, h, h.symm]
  · intro pkg proj
    rcases eq_or_ne pkg.version proj.info.version with h | h
    · simp [parsePypi, h]
    · simp [parsePypi, h, h.symm]
  · intro pkg info
    rcases eq_or_ne pkg.version (stripTag info.tag_name) with h | h
    · simp [parseGithub, h]
    · simp [parseGithub, h, h.symm]
  · intro pkg info
    rcases eq_or_ne pkg.version (stripTag info.tag_name) with h | h
    · simp [parseGithub, h]
    · simp [parseGithub, h, h.symm]

/-- Counterexample to C8 as stated: `Version::new` happily constructs a
Version from the single-component (and negative) sequence `[-3]`. -/
theorem versionNew_short_counterexample :
    versionNew [(-3 : Int)] = [-3] ∧ (versionNew [(-3 : Int)]).length = 1 :=
  ⟨rfl, rfl⟩

/-- C8 amended: Versions produced by parsing always have at least two
components, all non-negative; direct construction (`Version::new`) performs
no validation and stores the given sequence unchanged. -/
theorem version_invariant_amended :
    (∀ (s : List Char) (v : List Int), versionFromStr s = some v →
      2 ≤ v.length ∧ ∀ x ∈ v, 0 ≤ x) ∧
    (∀ v : List Int, versionNew v = v) := by
  refine ⟨?_, fun v => rfl⟩
  intro s v h
  simp only [versionFromStr] at h
  split_ifs at h with h1 h2
  rw [Option.some_inj] at h
  subst h
  refine ⟨by omega, ?_⟩
  intro x hx
  obtain ⟨t, ht, hf⟩ := mem_mapWhile _ x hx
  exact parseI32_nonneg (splitDelim_no_dash _ t ht) hf

/-- Witness for C8's amended theorem at a concrete parse. -/
theorem version_invariant_amended_witness :
    2 ≤ ([1, 2, 3] : List Int).length ∧ ∀ x ∈ ([1, 2, 3] : List Int), 0 ≤ x :=
  version_invariant_amended.1 "1.2.3".data [1, 2, 3] (by decide)

/-- C9: tokens are decoded as signed 32-bit integers, so an all-digit token
whose value exceeds `2147483647` fails to decode; when the second token of
the digit-suffix split overflows, the prefix decode stops before reaching
two components and the whole parse fails. -/
theorem parse_token_overflow_fails :
    (∀ t : List Char, t.all isAsciiDigit = true → 2147483647 < digitsVal 0 t →
      parseI32 t = none) ∧
    (∀ (s t0 t : List Char) (rest : List (List Char)),
      splitDelim (s.dropWhile (fun c => ¬ isAsciiDigit c)) = t0 :: t :: rest →
      t.all isAsciiDigit = true → 2147483647 < digitsVal 0 t →
      versionFromStr s = none) := by
  refine ⟨fun t h1 h2 => parseI32_overflow_none h1 h2, ?_⟩
  intro s t0 t rest hsplit hall hbig
  have hnone : parseI32 t = none := parseI32_overflow_none hall hbig
  simp only [versionFromStr, hsplit]
  by_cases h1 : s.any isAsciiDigit = true
  · cases e : parseI32 t0 with
    | none => simp [h1, mapWhile, e]
    | some x => simp [h1, mapWhile, e, hnone]
  · simp [h1]

/-- Witness for C9: the literal token `2147483648` fails to decode, and the
claimed input `1.2147483648.3` fails to parse entirely. -/
theorem parse_token_overflow_fails_witness :
    parseI32 "2147483648".data = none ∧
    versionFromStr "1.2147483648.3".data = none :=
  ⟨parse_token_overflow_fails.1 "2147483648".data (by decide) (by decide),
   parse_token_overflow_fails.2 "1.2147483648.3".data "1".data "2147483648".data
     ["3".data] (by decide) (by decide) (by decide)⟩

/-- C10: a `tag_name` without any ASCII digit (such as `latest`) is stripped
to the empty string, and when the current version is non-empty the
release-hosting strategy reports changed and adopts the empty string. -/
theorem parseGithub_no_digit_tag :
    ∀ (pkg : Package) (info : GitHubReleaseInfo),
      (∀ c ∈ info.tag_name, isAsciiDigit c = false) → pkg.version ≠ [] →
      parseGithub pkg info = (true, { pkg with version := [] }) := by
  intro pkg info hdig hver
  have hdrop : stripTag info.tag_name = [] := by
    rw [stripTag, List.dropWhile_eq_nil_iff]
    intro x hx
    simp [hdig x hx]
  simp [parseGithub, hdrop, hver]

/-- Witness for C10 with `tag_name = "latest"` and current version `1.2.3`. -/
theorem parseGithub_no_digit_tag_witness :
    parseGithub ⟨"x".data, "m".data, "1.2.3".data, none⟩ ⟨"latest".data⟩ =
      (true, ⟨"x".data, "m".data, [], none⟩) :=
  parseGithub_no_digit_tag ⟨"x".data, "m".data, "1.2.3".data, none⟩ ⟨"latest".data⟩
    (by decide) (by decide)

set_option maxRecDepth 400000 in
/-- C1 (code bug): on a generic host, with a 200 response whose scraped
Version `[1,1]` strictly exceeds the current `[1,0]`, `auto_check` updates
the package's version to its rendering `1.1` — yet still returns `false`:
the generic-HTML branch falls through to the final `false` and never
returns `true`. -/
theorem autoCheck_html_update_returns_false :
    autoCheck genericNet none none genericPkg =
      .ok (false, { genericPkg with version := "1.1".data }) ∧
    genericNet ⟨genericPkg.master_site, none⟩ =
      .resp 200 ⟨some genericBody, none, none⟩ ∧
    parseHtml genericBody = some [1, 1] ∧
    versionFromStr genericPkg.version = some [1, 0] ∧
    versionLt [1, 0] [1, 1] = true :=
  ⟨rfl, rfl, by decide, by decide, by decide⟩

/-- Counterexample to C2 as stated: on the package-index host a transport
failure of the send is not absorbed into `false` — the `unwrap()` on
`send()` aborts (panics). -/
theorem autoCheck_pypi_transport_panics :
    autoCheck transportFailNet none none pypiPkg = .error "send unwrap".data :=
  rfl

/-- C2 amended: a transport failure is absorbed into `false` only by the
generic-HTML strategy; a non-success status is absorbed into `false` by
every strategy; a structured-decode failure is absorbed into `false` by the
package-index and release-hosting strategies.  (Transport failures in the
two structured strategies abort, as the counterexample shows.) -/
theorem autoCheck_error_absorption_amended :
    (∀ (net : Request → FetchOutcome) (ga gt : Option (List Char)) (pkg : Package)
        (url : Url) (host : List Char),
      urlParse pkg.master_site = some url → url.domain = some host →
      host ≠ "pypi.org".data → host ≠ "github.com".data →
      net ⟨pkg.master_site, none⟩ = .transportErr →
      autoCheck net ga gt pkg = .ok (false, pkg)) ∧
    (∀ (net : Request → FetchOutcome) (ga gt : Option (List Char)) (pkg : Package)
        (url : Url),
      urlParse pkg.master_site = some url →
      (∀ req, ∃ st body, net req = .resp st body ∧ st ≠ 200) →
      autoCheck net ga gt pkg = .ok (false, pkg)) ∧
    (∀ (net : Request → FetchOutcome) (ga gt : Option (List Char)) (pkg : Package)
        (url : Url) (host : List Char),
      urlParse pkg.master_site = some url → url.domain = some host →
      (host = "pypi.org".data ∨ host = "github.com".data) →
      (∀ req, ∃ body, net req = .resp 200 body ∧ body.pypiJson = none ∧
        body.githubJson = none) →
      autoCheck net ga gt pkg = .ok (false, pkg)) := by
  refine ⟨?_, ?_, ?_⟩
  · intro net ga gt pkg url host hurl hdom hp hg hnet
    simp only [autoCheck, hurl, hdom]
    rw [if_neg hp, if_neg hg, hnet]
  · intro net ga gt pkg url hurl hresp
    simp only [autoCheck, hurl]
    split
    · rfl
    · split
      · split
        · rfl
        · split
          · rename_i heq
            obtain ⟨st, b2, h1, -⟩ := hresp _
            rw [heq] at h1
            cases h1
          · rename_i status body heq
            split
            · rfl
            · rename_i hstatus
              obtain ⟨st, b2, h1, h2⟩ := hresp _
              rw [heq] at h1
              injection h1 with e1 e2
              subst e1
              exact absurd h2 hstatus
      · split
        · split
          · rename_i heq
            obtain ⟨st, b2, h1, -⟩ := hresp _
            rw [heq] at h1
            cases h1
          · rename_i status body heq
            split
            · rfl
            · rename_i hstatus
              obtain ⟨st, b2, h1, h2⟩ := hresp _
              rw [heq] at h1
              injection h1 with e1 e2
              subst e1
              exact absurd h2 hstatus
        · split
          · rfl
          · rename_i status body heq
            split
            · rfl
            · rename_i hstatus
              obtain ⟨st, b2, h1, h2⟩ := hresp _
              rw [heq] at h1
              injection h1 with e1 e2
              subst e1
              exact absurd h2 hstatus
  · intro net ga gt pkg url host hurl hdom hhost hresp
    simp only [autoCheck, hurl]
    split
    · rename_i heq
      rw [heq] at hdom
    · rename_i hostname heq
      rw [heq] at hdom
      injection hdom with e
      subst e
      split
      · split
        · rfl
        · split
          · rename_i heq2
            obtain ⟨b2, h1, -, -⟩ := hresp _
            rw [heq2] at h1
            cases h1
          · rename_i status body heq2
            split
            · rfl
            · obtain ⟨b2, h1, hpj, hgj⟩ := hresp _
              rw [heq2] at h1
              injection h1 with e1 e2
              subst e1
              subst e2
              simp [hpj]
      · split
        · split
          · rename_i heq2
            obtain ⟨b2, h1, -, -⟩ := hresp _
            rw [heq2] at h1
            cases h1
          · rename_i status body heq2
            split
            · rfl
            · obtain ⟨b2, h1, hpj, hgj⟩ := hresp _
              rw [heq2] at h1
              injection h1 with e1 e2
              subst e1
              subst e2
              simp [hgj]
        · rename_i hp hg
          rcases hhost with h | h
          · exact absurd h hp
          · exact absurd h hg

set_option maxRecDepth 400000 in
/-- Witness for C2's amended theorem at concrete packages and networks: a
transport failure on a generic host, a 503 on the three hosts, and a 200
with undecodable JSON on the two structured hosts all yield `false` with the
package unchanged. -/
theorem autoCheck_error_absorption_amended_witness :
    autoCheck transportFailNet none none genericPkg = .ok (false, genericPkg) ∧
    autoCheck status503Net none none pypiPkg = .ok (false, pypiPkg) ∧
    autoCheck status503Net none none githubPkg = .ok (false, githubPkg) ∧
    autoCheck status503Net none none genericPkg = .ok (false, genericPkg) ∧
    autoCheck decodeFailNet none none pypiPkg = .ok (false, pypiPkg) ∧
    autoCheck decodeFailNet none none githubPkg = .ok (false, githubPkg) := by
  refine ⟨?_, ?_, ?_, ?_, ?_, ?_⟩
  · exact autoCheck_error_absorption_amended.1 transportFailNet none none genericPkg
      ⟨some "example.com".data, "/dist".data, some ["dist".data]⟩ "example.com".data
      (by decide) rfl (by decide) (by decide) rfl
  · exact autoCheck_error_absorption_amended.2.1 status503Net none none pypiPkg
      ⟨some "pypi.org".data, "/project/foo".data, some ["project".data, "foo".data]⟩
      (by decide) (fun req => ⟨503, ⟨none, none, none⟩, rfl, by decide⟩)
  · exact autoCheck_error_absorption_amended.2.1 status503Net none none githubPkg
      ⟨some "github.com".data, "/owner/bar".data, some ["owner".data, "bar".data]⟩
      (by decide) (fun req => ⟨503, ⟨none, none, none⟩, rfl, by decide⟩)
  · exact autoCheck_error_absorption_amended.2.1 status503Net none none genericPkg
      ⟨some "example.com".data, "/dist".data, some ["dist".data]⟩
      (by decide) (fun req => ⟨503, ⟨none, none, none⟩, rfl, by decide⟩)
  · exact autoCheck_error_absorption_amended.2.2 decodeFailNet none none pypiPkg
      ⟨some "pypi.org".data, "/project/foo".data, some ["project".data, "foo".data]⟩
      "pypi.org".data (by decide) rfl (Or.inl rfl)
      (fun req => ⟨⟨some [], none, none⟩, rfl, rfl, rfl⟩)
  · exact autoCheck_error_absorption_amended.2.2 decodeFailNet none none githubPkg
      ⟨some "github.com".data, "/owner/bar".data, some ["owner".data, "bar".data]⟩
      "github.com".data (by decide) rfl (Or.inr rfl)
      (fun req => ⟨⟨some [], none, none⟩, rfl, rfl, rfl⟩)

theorem replaceAllAux_fuel (pat rep : List Char) :
    ∀ (f1 f2 : Nat) (s : List Char), s.length ≤ f1 → s.length ≤ f2 →
      replaceAllAux pat rep f1 s = replaceAllAux pat rep f2 s := by
  intro f1
  induction f1 with
  | zero =>
    intro f2 s h1 h2
    have hs : s = [] := List.length_eq_zero.1 (Nat.le_zero.1 h1)
    subst hs
    cases f2 <;> rfl
  | succ f ih =>
    intro f2 s h1 h2
    cases s with
    | nil => cases f2 <;> rfl
    | cons c t =>
      cases f2 with
      | zero =>
        simp only [List.length_cons] at h2
        omega
      | succ f2a =>
        simp only [replaceAllAux]
        by_cases hcond : 0 < pat.length ∧ pat.isPrefixOf (c :: t)
        · rw [if_pos hcond, if_pos hcond]
          congr 1
          apply ih
          · simp only [List.length_drop, List.length_cons]
            simp only [List.length_cons] at h1
            omega
          · simp only [List.length_drop, List.length_cons]
            simp only [List.length_cons] at h2
            omega
        · rw [if_neg hcond, if_neg hcond]
          congr 1
          apply ih
          · simp only [List.length_cons] at h1
            omega
          · simp only [List.length_cons] at h2
            omega

theorem replaceAll_nil (pat rep : List Char) : replaceAll pat rep [] = [] := rfl

theorem replaceAll_cons (pat rep : List Char) (c : Char) (t : List Char) :
    replaceAll pat rep (c :: t) =
      if 0 < pat.length ∧ pat.isPrefixOf (c :: t) then
        rep ++ replaceAll pat rep ((c :: t).drop pat.length)
      else c :: replaceAll pat rep t := by
  by_cases hcond : 0 < pat.length ∧ pat.isPrefixOf (c :: t)
  · rw [if_pos hcond]
    show replaceAllAux pat rep (c :: t).length (c :: t) = _
    simp only [List.length_cons, replaceAllAux]
    rw [if_pos hcond]
    congr 1
    apply replaceAllAux_fuel
    · simp only [List.length_drop, List.length_cons]
      omega
    · exact le_refl _
  · rw [if_neg hcond]
    show replaceAllAux pat rep (c :: t).length (c :: t) = _
    simp only [List.length_cons, replaceAllAux]
    rw [if_neg hcond]
    rfl

theorem containsSub_iff (pat : List Char) :
    ∀ s, containsSub pat s = true ↔ occursIn pat s := by
  intro s
  induction s with
  | nil =>
    simp only [containsSub, occursIn]
    rw [isPrefixOf_eq]
    constructor
    · intro h
      exact ⟨0, h⟩
    · rintro ⟨i, hi⟩
      simpa using hi
  | cons c t ih =>
    simp only [containsSub, Bool.or_eq_true, isPrefixOf_eq, ih, occursIn]
    constructor
    · rintro (h | ⟨i, hi⟩)
      · exact ⟨0, by simpa using h⟩
      · exact ⟨i + 1, by simpa using hi⟩
    · rintro ⟨i, hi⟩
      cases i with
      | zero => exact Or.inl (by simpa using hi)
      | succ j => exact Or.inr ⟨j, by simpa using hi⟩

theorem replaceAll_of_not_occurs (pat rep : List Char) :
    ∀ s, ¬ occursIn pat s → replaceAll pat rep s = s := by
  intro s
  induction s with
  | nil => intro h; rfl
  | cons c t ih =>
    intro h
    rw [replaceAll_cons]
    have hpre : ¬ (0 < pat.length ∧ pat.isPrefixOf (c :: t)) := by
      rintro ⟨-, hp⟩
      exact h ⟨0, by simpa using (isPrefixOf_eq _ _).1 hp⟩
    rw [if_neg hpre]
    have ht : ¬ occursIn pat t := by
      rintro ⟨i, hi⟩
      exact h ⟨i + 1, by simpa using hi⟩
    rw [ih ht]

theorem dropPrefix_transfer (pat rep : List Char)
    (H3 : ∀ k, 0 < k → k < pat.length → ¬ pat.drop k <+: rep)
    (H4 : ∀ k, 0 < k → k < pat.length → ¬ rep <+: pat.drop k) :
    ∀ (n : Nat) (t : List Char), t.length ≤ n → ∀ k, 0 < k → k < pat.length →
      pat.drop k <+: replaceAll pat rep t → pat.drop k <+: t := by
  intro n
  induction n with
  | zero =>
    intro t ht k hk1 hk2 hp
    have hs : t = [] := List.length_eq_zero.1 (Nat.le_zero.1 ht)
    subst hs
    rw [replaceAll_nil] at hp
    have he := List.prefix_nil.1 hp
    have hlen := congrArg List.length he
    simp only [List.length_drop, List.length_nil] at hlen
    omega
  | succ n ih =>
    intro t ht k hk1 hk2 hp
    cases t with
    | nil =>
      rw [replaceAll_nil] at hp
      have he := List.prefix_nil.1 hp
      have hlen := congrArg List.length he
      simp only [List.length_drop, List.length_nil] at hlen
      omega
    | cons c u =>
      rw [replaceAll_cons] at hp
      by_cases hcond : 0 < pat.length ∧ pat.isPrefixOf (c :: u)
      · rw [if_pos hcond] at hp
        by_cases hfit : pat.length - k ≤ rep.length
        · have hqrep : pat.drop k <+: rep := by
            apply List.prefix_of_prefix_length_le hp (List.prefix_append rep _)
            simp only [List.length_drop]
            omega
          exact absurd hqrep (H3 k hk1 hk2)
        · have hrepq : rep <+: pat.drop k := by
            apply List.prefix_of_prefix_length_le (List.prefix_append rep _) hp
            simp only [List.length_drop]
            omega
          exact absurd hrepq (H4 k hk1 hk2)
      · rw [if_neg hcond] at hp
        rw [List.drop_eq_getElem_cons hk2] at hp ⊢
        rw [List.cons_prefix_cons] at hp ⊢
        obtain ⟨hc, hrest⟩ := hp
        refine ⟨hc, ?_⟩
        by_cases hk3 : k + 1 < pat.length
        · apply ih u ?_ (k + 1) (by omega) hk3 hrest
          simp only [List.length_cons] at ht
          omega
        · have hdk : pat.drop (k + 1) = [] := by
            rw [List.drop_eq_nil_iff]
            omega
          rw [hdk]
          exact List.nil_prefix

theorem replaceAll_no_occurs (pat rep : List Char)
    (HP : 2 ≤ pat.length)
    (H1 : ∀ i, i ≤ rep.length → ¬ pat <+: rep.drop i)
    (H2 : ∀ i, i < rep.length → ¬ rep.drop i <+: pat)
    (H3 : ∀ k, 0 < k → k < pat.length → ¬ pat.drop k <+: rep)
    (H4 : ∀ k, 0 < k → k < pat.length → ¬ rep <+: pat.drop k) :
    ∀ (n : Nat) (t : List Char), t.length ≤ n →
      ¬ occursIn pat (replaceAll pat rep t) := by
  intro n
  induction n with
  | zero =>
    intro t ht hocc
    have hs : t = [] := List.length_eq_zero.1 (Nat.le_zero.1 ht)
    subst hs
    rw [replaceAll_nil] at hocc
    obtain ⟨i, hi⟩ := hocc
    simp only [List.drop_nil] at hi
    have he := List.prefix_nil.1 hi
    have hlen := congrArg List.length he
    simp only [List.length_nil] at hlen
    omega
  | succ n ih =>
    intro t ht hocc
    cases t with
    | nil =>
      rw [replaceAll_nil] at hocc
      obtain ⟨i, hi⟩ := hocc
      simp only [List.drop_nil] at hi
      have he := List.prefix_nil.1 hi
      have hlen := congrArg List.length he
      simp only [List.length_nil] at hlen
      omega
    | cons c u =>
      rw [replaceAll_cons] at hocc
      by_cases hcond : 0 < pat.length ∧ pat.isPrefixOf (c :: u)
      · rw [if_pos hcond] at hocc
        obtain ⟨i, hi⟩ := hocc
        rw [List.drop_append_eq_append_drop] at hi
        by_cases hrange : i < rep.length
        · by_cases hfit : pat.length ≤ rep.length - i
          · have hin : pat <+: rep.drop i := by
              apply List.prefix_of_prefix_length_le hi (List.prefix_append _ _)
              simp only [List.length_drop]
              omega
            exact absurd hin (H1 i (by omega))
          · have hin : rep.drop i <+: pat := by
              apply List.prefix_of_prefix_length_le (List.prefix_append _ _) hi
              simp only [List.length_drop]
              omega
            exact absurd hin (H2 i hrange)
        · have hrd : rep.drop i = [] := by
            rw [List.drop_eq_nil_iff]
            omega
          rw [hrd, List.nil_append] at hi
          refine ih ((c :: u).drop pat.length) ?_ ⟨i - rep.length, hi⟩
          simp only [List.length_drop, List.length_cons]
          simp only [List.length_cons] at ht
          omega
      · rw [if_neg hcond] at hocc
        obtain ⟨i, hi⟩ := hocc
        cases i with
        | zero =>
          simp only [List.drop_zero] at hi
          cases pat with
          | nil => simp at HP
          | cons p0 ps =>
            rw [List.cons_prefix_cons] at hi
            obtain ⟨hc, hrest⟩ := hi
            have hk2 : 1 < (p0 :: ps).length := by
              simp only [List.length_cons] at HP ⊢
              omega
            have htrans := dropPrefix_transfer (p0 :: ps) rep H3 H4 u.length u
              (le_refl _) 1 (by omega) hk2 hrest
            have hpre : (p0 :: ps).isPrefixOf (c :: u) = true := by
              rw [isPrefixOf_eq, List.cons_prefix_cons]
              exact ⟨hc, by simpa using htrans⟩
            exact hcond ⟨by simp, hpre⟩
        | succ j =>
          simp only [List.drop_succ_cons] at hi
          apply ih u ?_ ⟨j, hi⟩
          simp only [List.length_cons] at ht
          omega

theorem replaceAll_eq_nil_iff (pat rep : List Char) (hrep : rep ≠ []) :
    ∀ t, replaceAll pat rep t = [] ↔ t = [] := by
  intro t
  cases t with
  | nil => simp [replaceAll_nil]
  | cons c u =>
    rw [replaceAll_cons]
    by_cases hcond : 0 < pat.length ∧ pat.isPrefixOf (c :: u)
    · rw [if_pos hcond]
      constructor
      · intro h
        exact absurd (List.append_eq_nil.1 h).1 hrep
      · intro h
        exact absurd h (by simp)
    · rw [if_neg hcond]
      simp

theorem replaceAll_getLast (pat rep : List Char) (d : Char)
    (hrep : rep ≠ []) (hpat : pat.getLast? = some d) :
    ∀ (n : Nat) (t : List Char), t.length ≤ n → t.getLast? ≠ some d →
      (replaceAll pat rep t).getLast? ≠ some d := by
  intro n
  induction n with
  | zero =>
    intro t ht hlast
    have hs : t = [] := List.length_eq_zero.1 (Nat.le_zero.1 ht)
    subst hs
    simp [replaceAll_nil]
  | succ n ih =>
    intro t ht hlast
    cases t with
    | nil => simp [replaceAll_nil]
    | cons c u =>
      rw [replaceAll_cons]
      by_cases hcond : 0 < pat.length ∧ pat.isPrefixOf (c :: u)
      · rw [if_pos hcond]
        by_cases hnil : (c :: u).drop pat.length = []
        · exfalso
          have hple : (c :: u).length ≤ pat.length := List.drop_eq_nil_iff.1 hnil
          have hpre : pat <+: c :: u := (isPrefixOf_eq _ _).1 hcond.2
          have hpeq : pat = c :: u :=
            hpre.eq_of_length (le_antisymm hpre.length_le hple)
          rw [← hpeq] at hlast
          exact hlast hpat
        · have hlast2 : ((c :: u).drop pat.length).getLast? ≠ some d := by
            intro hd
            apply hlast
            rw [← List.take_append_drop pat.length (c :: u),
              List.getLast?_append_of_ne_nil _ hnil]
            exact hd
          have hR := ih ((c :: u).drop pat.length) ?_ hlast2
          · have hRnil : replaceAll pat rep ((c :: u).drop pat.length) ≠ [] := by
              rw [Ne, replaceAll_eq_nil_iff pat rep hrep]
              exact hnil
            rw [List.getLast?_append_of_ne_nil _ hRnil]
            exact hR
          · simp only [List.length_drop, List.length_cons]
            simp only [List.length_cons] at ht
            omega
      · rw [if_neg hcond]
        cases u with
        | nil => simpa [replaceAll_nil] using hlast
        | cons u0 u1 =>
          rw [List.getLast?_cons_cons] at hlast
          have hR := ih (u0 :: u1) ?_ hlast
          · have hRnil : replaceAll pat rep (u0 :: u1) ≠ [] := by
              rw [Ne, replaceAll_eq_nil_iff pat rep hrep]
              simp
            cases e : replaceAll pat rep (u0 :: u1) with
            | nil => exact absurd e hRnil
            | cons r0 r1 =>
              rw [e] at hR
              rw [List.getLast?_cons_cons]
              exact hR
          · simp only [List.length_cons] at ht ⊢
            omega

theorem pypi_no_reocc (s : List Char) :
    containsSub patPypi (replaceAll patPypi repPypi s) = false := by
  rw [Bool.eq_false_iff]
  intro h
  have h3 : ∀ k < patPypi.length, ¬ List.drop k patPypi <+: repPypi := by decide
  have h4 : ∀ k < patPypi.length, ¬ repPypi <+: List.drop k patPypi := by decide
  exact replaceAll_no_occurs patPypi repPypi (by decide) (by decide) (by decide)
    (fun k _ hk2 => h3 k hk2) (fun k _ hk2 => h4 k hk2) s.length s (le_refl _)
    ((containsSub_iff _ _).1 h)

theorem pypi_last (s : List Char) (h : s.getLast? ≠ some '/') :
    (replaceAll patPypi repPypi s).getLast? ≠ some '/' :=
  replaceAll_getLast patPypi repPypi '/' (by decide) (by decide) s.length s
    (le_refl _) h

/-- Counterexample to C7 as stated: normalization strips only one trailing
`/` per application, so a URL ending in `//` changes again on the second
application — normalization is not idempotent on every input URL string. -/
theorem fixPypiSite_not_idempotent_counterexample :
    fixPypiSite "https://example.com/a//".data = "https://example.com/a/".data ∧
    fixPypiSite "https://example.com/a/".data = "https://example.com/a".data ∧
    fixPypiSite (fixPypiSite "https://example.com/a//".data) ≠
      fixPypiSite "https://example.com/a//".data :=
  ⟨by decide, by decide, by decide⟩

/-- C7 amended: normalization rewrites the legacy package-index URL as
claimed on the concrete example, and it is idempotent on every input that
does not end in two consecutive `/` characters (an input ending in `//`
refutes unrestricted idempotence). -/
theorem fixPypiSite_normalization_amended :
    fixPypiSite "https://pypi.python.org/pypi/foo/".data =
      "https://pypi.org/project/foo".data ∧
    (∀ s : List Char,
      ¬ (s.getLast? = some '/' ∧ s.dropLast.getLast? = some '/') →
      fixPypiSite (fixPypiSite s) = fixPypiSite s) := by
  refine ⟨by decide, ?_⟩
  intro s hs
  have hs1last : (if s.getLast? = some '/' then s.dropLast else s).getLast? ≠
      some '/' := by
    by_cases h : s.getLast? = some '/'
    · rw [if_pos h]
      intro hd
      exact hs ⟨h, hd⟩
    · rw [if_neg h]
      exact h
  have hfix : fixPypiSite s =
      if containsSub patPypi (if s.getLast? = some '/' then s.dropLast else s) then
        replaceAll patPypi repPypi (if s.getLast? = some '/' then s.dropLast else s)
      else (if s.getLast? = some '/' then s.dropLast else s) := rfl
  by_cases hc : containsSub patPypi
      (if s.getLast? = some '/' then s.dropLast else s) = true
  · have hr : fixPypiSite s =
        replaceAll patPypi repPypi (if s.getLast? = some '/' then s.dropLast else s) := by
      rw [hfix, if_pos hc]
    rw [hr]
    have hrlast := pypi_last _ hs1last
    have hrcont := pypi_no_reocc (if s.getLast? = some '/' then s.dropLast else s)
    simp [fixPypiSite, if_neg hrlast, hrcont]
  · have hceq : containsSub patPypi
        (if s.getLast? = some '/' then s.dropLast else s) = false := by
      cases e : containsSub patPypi (if s.getLast? = some '/' then s.dropLast else s)
      · rfl
      · exact absurd e hc
    have hr : fixPypiSite s = (if s.getLast? = some '/' then s.dropLast else s) := by
      rw [hfix, if_neg hc]
    rw [hr]
    simp [fixPypiSite, if_neg hs1last, hceq]

/-- Witness for C7's amended idempotence at the spec's own example URL. -/
theorem fixPypiSite_normalization_amended_witness :
    fixPypiSite (fixPypiSite "https://pypi.python.org/pypi/foo/".data) =
      fixPypiSite "https://pypi.python.org/pypi/foo/".data :=
  fixPypiSite_normalization_amended.2 "https://pypi.python.org/pypi/foo/".data
    (by decide)

example : versionFromStr "package-1.2.3.tar.gz".data = some [1, 2, 3] := by decide
example : versionFromStr "package-1.2-3".data = some [1, 2, 3] := by decide
example : versionFromStr "01.02.03".data = some [1, 2, 3] := by decide
example : versionFromStr "1.2.3".data = some [1, 2, 3] := by decide
example : versionFromStr "SHA256".data = none := by decide
example : versionFromStr "package.tar.gz".data = none := by decide
example : versionFromStr "../".data = none := by decide
example : versionFromStr "sudo-1.8.10p1.tar.gz".data = some [1, 8] := by decide
example : versionFromStr "1.2147483648.3".data = none := by decide
example : versionCmp [1, 2] [1, 2, 0] = .lt := by decide
example : versionToString [1, 2, 3] = "1.2.3".data := by decide

end Vert
